import Mathlib

/-!
Shallow embedding of `src/jelinski_moranda.py` (Jelinski–Moranda model:
Newton solver for the MLE of the total defect count `B_hat`, plus the
derived metrics `K_hat`, `X_next` and `time_to_finish`).

Python floats are modelled by exact rationals (`ℚ`); `math.log` is modelled
by `Real.log`, so the one `ℝ`-valued quantity (`time_to_finish`) lives in a
separate definition.  A Python `ZeroDivisionError` is modelled by
`Except.error JMError.divByZero`, raised exactly where the Python code would
divide by zero; `math.inf` (the `X_next` sentinel) is modelled by `none`.
-/

deriving instance DecidableEq for Except

namespace JM

/-- The only exception the estimator can raise: Python's `ZeroDivisionError`. -/
inductive JMError where
  | divByZero
deriving DecidableEq

/-- The fields of the dict returned by `compute`, except `time_to_finish`
(which is `ℝ`-valued and modelled by the standalone function
`time_to_finish` applied to `B_hat`, `n` and `K_hat`).
`X_next = none` models the `math.inf` sentinel. -/
structure CoreRes where
  n : ℕ
  B_hat : ℚ
  K_hat : ℚ
  X_next : Option ℚ
  iterations : ℕ
  converged : Bool
  remaining : ℚ
deriving DecidableEq

/-- `math.fsum(X)`: the (exact) sum of the observed intervals. -/
def sumX : List ℚ → ℚ
  | [] => 0
  | x :: xs => x + sumX xs

/-- The loop body of `f_and_s2` over `data = [(i, Xi)]` (1-based `i`), started
at index `i`: accumulates `s1 = Σ 1/(B - i + 1)` and `s2 = Σ (B - i + 1)·Xi`,
raising `ZeroDivisionError` at the first zero denominator (as `1.0 / denom`
would). -/
def fS2Aux (B : ℚ) : ℕ → List ℚ → Except JMError (ℚ × ℚ)
  | _, [] => .ok (0, 0)
  | i, x :: xs =>
    if B - (i : ℚ) + 1 = 0 then .error .divByZero
    else
      match fS2Aux B (i + 1) xs with
      | .error e => .error e
      | .ok (s1, s2) => .ok (1 / (B - (i : ℚ) + 1) + s1, (B - (i : ℚ) + 1) * x + s2)

/-- The pure weighted sum `Σ (B - i + 1)·Xi` (1-based `i`, started at `i`),
as recomputed by `compute` for the `K_hat` denominator (no divisions, so no
exception can occur there). -/
def s2sum (B : ℚ) : ℕ → List ℚ → ℚ
  | _, [] => 0
  | i, x :: xs => (B - (i : ℚ) + 1) * x + s2sum B (i + 1) xs

/-- `f_and_s2(B)`: returns `(f(B), s2)` where
`f(B) = s1 - (n * Sx) / s2`, erroring if `s2 = 0` (Python's final division). -/
def f_and_s2 (X : List ℚ) (B : ℚ) : Except JMError (ℚ × ℚ) :=
  match fS2Aux B 1 X with
  | .error e => .error e
  | .ok (s1, s2) =>
    if s2 = 0 then .error .divByZero
    else .ok (s1 - ((X.length : ℚ) * sumX X) / s2, s2)

/-- The generator sum of `fprime`: `Σ 1/(B - i + 1)^2` over the data indices
(the values `Xi` are ignored; only the index range matters). -/
def s1sqAux (B : ℚ) : ℕ → List ℚ → Except JMError ℚ
  | _, [] => .ok 0
  | i, _ :: xs =>
    if (B - (i : ℚ) + 1) ^ 2 = 0 then .error .divByZero
    else
      match s1sqAux B (i + 1) xs with
      | .error e => .error e
      | .ok s => .ok (1 / (B - (i : ℚ) + 1) ^ 2 + s)

/-- `fprime(B, s2) = -s1 + (n * Sx^2) / s2^2`, erroring if `s2^2 = 0`. -/
def fprime (X : List ℚ) (s2 B : ℚ) : Except JMError ℚ :=
  match s1sqAux B 1 X with
  | .error e => .error e
  | .ok s1 =>
    if s2 ^ 2 = 0 then .error .divByZero
    else .ok (-s1 + ((X.length : ℚ) * (sumX X) ^ 2) / s2 ^ 2)

/-- The near-zero-derivative guard of the solver (lines 53–54 of the source):
`if abs(deriv) < 1e-16: deriv = 1e-16`.  Note the replacement value is the
positive constant `1e-16` whatever the sign of `deriv`. -/
def clampDeriv (d : ℚ) : ℚ :=
  if |d| < 1 / 10 ^ 16 then 1 / 10 ^ 16 else d

/-- One Newton update from `B` (lines 48–58 of the source, minus the two
convergence tests): evaluate `f` and `s2`, evaluate and clamp the derivative,
take the Newton step, and apply the domain guard
`if B_new <= n: B_new = (B + n + 1)/2`. -/
def newtonStep (X : List ℚ) (B : ℚ) : Except JMError ℚ :=
  match f_and_s2 X B with
  | .error e => .error e
  | .ok (val, s2) =>
    match fprime X s2 B with
    | .error e => .error e
    | .ok deriv =>
      let Bn := B - val / clampDeriv deriv
      .ok (if Bn ≤ (X.length : ℚ) then (B + (X.length : ℚ) + 1) / 2 else Bn)

/-- The `for it in range(1, maxiter + 1)` loop of `solve_B_newton`, with the
remaining iteration count as fuel and `it` the 1-based iteration counter.
Exhausted fuel returns `(B, maxiter, False)` like the Python fall-through. -/
def newtonLoop (X : List ℚ) (tol : ℚ) (maxiter : ℕ) : ℕ → ℕ → ℚ → Except JMError (ℚ × ℕ × Bool)
  | 0, _, B => .ok (B, maxiter, false)
  | fuel + 1, it, B =>
    match f_and_s2 X B with
    | .error e => .error e
    | .ok (val, _) =>
      if |val| < tol then .ok (B, it, true)
      else
        match newtonStep X B with
        | .error e => .error e
        | .ok Bn =>
          if |Bn - B| < 1 / 10 ^ 12 then .ok (Bn, it, true)
          else newtonLoop X tol maxiter fuel (it + 1) Bn

/-- `solve_B_newton(X, tol, maxiter)`: Newton iteration started at
`B = n + 2.0`, returning `(B_hat, iterations, converged)`. -/
def solve_B_newton (X : List ℚ) (tol : ℚ) (maxiter : ℕ) : Except JMError (ℚ × ℕ × Bool) :=
  newtonLoop X tol maxiter maxiter 1 ((X.length : ℚ) + 2)

/-- `compute(X)` up to (and excluding) `time_to_finish`: runs the solver with
its default arguments `tol = 1e-10`, `maxiter = 200`, recomputes the weighted
sum for `K_hat = n / denom`, sets `remaining = B_hat - n` and
`X_next = inf if remaining <= 0 else 1/(K_hat*remaining)`. -/
def compute (X : List ℚ) : Except JMError CoreRes :=
  match solve_B_newton X (1 / 10 ^ 10) 200 with
  | .error e => .error e
  | .ok (B_hat, iterations, converged) =>
    let n := X.length
    let denom := s2sum B_hat 1 X
    if denom = 0 then .error .divByZero
    else
      let K_hat := (n : ℚ) / denom
      let remaining := B_hat - (n : ℚ)
      if remaining ≤ 0 then
        .ok ⟨n, B_hat, K_hat, none, iterations, converged, remaining⟩
      else
        if K_hat * remaining = 0 then .error .divByZero
        else .ok ⟨n, B_hat, K_hat, some (1 / (K_hat * remaining)), iterations, converged, remaining⟩

/-- The harmonic sum `H_m = Σ_{k=1}^{m} 1/k` (Python:
`fsum(1.0/k for k in range(1, m+1))`). -/
def harm : ℕ → ℚ
  | 0 => 0
  | m + 1 => harm m + 1 / ((m : ℚ) + 1)

/-- The `time_to_finish` entry of the dict returned by `compute` (lines
99–105 of the source), as a function of the computed `B_hat`, `n` and
`K_hat`: if `remaining > 0` it is
`max(H_m, log(B_hat/(B_hat - n))) / K_hat` with `m = int(remaining)`
(truncation, which equals the floor on this positive branch), else `0`. -/
noncomputable def time_to_finish (B_hat : ℚ) (n : ℕ) (K_hat : ℚ) : ℝ :=
  if 0 < B_hat - (n : ℚ) then
    max ((harm (Int.toNat ⌊B_hat - (n : ℚ)⌋) : ℚ) : ℝ)
        (Real.log ((B_hat : ℝ) / ((B_hat : ℝ) - (n : ℝ)))) / ((K_hat : ℚ) : ℝ)
  else 0

/-- Modelled from the spec: the spec's `time_to_finish` formula —
`m = max(n+1, ceil(B_hat)) - n`, floored at `1`, and the result is the plain
harmonic quotient `H_m / K_hat` with no logarithmic term.  This definition
follows the spec's words (for comparison against the source's
`time_to_finish` above), not the source. -/
def time_to_finish_spec (B_hat : ℚ) (n : ℕ) (K_hat : ℚ) : ℚ :=
  harm (max 1 (max (n + 1) (Int.toNat ⌈B_hat⌉) - n)) / K_hat

/-! ### Totality and domain lemmas for the solver -/

/-- If no scanned denominator vanishes, `fS2Aux` succeeds and its second
component is the pure weighted sum `s2sum`. -/
theorem fS2Aux_ok (B : ℚ) : ∀ (xs : List ℚ) (i : ℕ),
    (∀ k, k < xs.length → B - ((i + k : ℕ) : ℚ) + 1 ≠ 0) →
    ∃ s1, fS2Aux B i xs = .ok (s1, s2sum B i xs)
  | [], _, _ => ⟨0, rfl⟩
  | x :: xs, i, hd => by
    have h0 : B - (i : ℚ) + 1 ≠ 0 := by
      have h := hd 0 (by simp)
      simpa using h
    obtain ⟨s1, hs1⟩ := fS2Aux_ok B xs (i + 1) (fun k hk => by
      have h := hd (k + 1) (by simp only [List.length_cons]; omega)
      have e : i + (k + 1) = i + 1 + k := by omega
      rw [e] at h
      exact h)
    exact ⟨1 / (B - (i : ℚ) + 1) + s1, by simp [fS2Aux, h0, hs1, s2sum]⟩

/-- If the scanned denominators are positive and the intervals nonnegative,
the weighted sum is nonnegative. -/
theorem s2sum_nonneg (B : ℚ) : ∀ (xs : List ℚ) (i : ℕ),
    (∀ k, k < xs.length → 0 < B - ((i + k : ℕ) : ℚ) + 1) →
    (∀ x ∈ xs, 0 < x) → 0 ≤ s2sum B i xs
  | [], _, _, _ => le_refl 0
  | x :: xs, i, hd, hx => by
    have h0 : 0 < B - (i : ℚ) + 1 := by
      have h := hd 0 (by simp)
      simpa using h
    have hxpos : 0 < x := hx x (by simp)
    have htail : 0 ≤ s2sum B (i + 1) xs := by
      refine s2sum_nonneg B xs (i + 1) (fun k hk => ?_) (fun y hy => hx y (by simp [hy]))
      have h := hd (k + 1) (by simp only [List.length_cons]; omega)
      have e : i + (k + 1) = i + 1 + k := by omega
      rw [e] at h
      exact h
    have : 0 ≤ (B - (i : ℚ) + 1) * x := le_of_lt (mul_pos h0 hxpos)
    simp only [s2sum]
    linarith

/-- For a nonempty list of positive intervals with positive denominators the
weighted sum is strictly positive. -/
theorem s2sum_pos (B : ℚ) (xs : List ℚ) (i : ℕ) (hne : xs ≠ [])
    (hd : ∀ k, k < xs.length → 0 < B - ((i + k : ℕ) : ℚ) + 1)
    (hx : ∀ x ∈ xs, 0 < x) : 0 < s2sum B i xs := by
  match xs, hne with
  | x :: xs, _ =>
    have h0 : 0 < B - (i : ℚ) + 1 := by
      have h := hd 0 (by simp)
      simpa using h
    have hxpos : 0 < x := hx x (by simp)
    have htail : 0 ≤ s2sum B (i + 1) xs := by
      refine s2sum_nonneg B xs (i + 1) (fun k hk => ?_) (fun y hy => hx y (by simp [hy]))
      have h := hd (k + 1) (by simp only [List.length_cons]; omega)
      have e : i + (k + 1) = i + 1 + k := by omega
      rw [e] at h
      exact h
    have hhead : 0 < (B - (i : ℚ) + 1) * x := mul_pos h0 hxpos
    simp only [s2sum]
    linarith

/-- If no scanned denominator vanishes, the derivative sum succeeds. -/
theorem s1sqAux_ok (B : ℚ) : ∀ (xs : List ℚ) (i : ℕ),
    (∀ k, k < xs.length → B - ((i + k : ℕ) : ℚ) + 1 ≠ 0) →
    ∃ s, s1sqAux B i xs = .ok s
  | [], _, _ => ⟨0, rfl⟩
  | x :: xs, i, hd => by
    have h0 : B - (i : ℚ) + 1 ≠ 0 := by
      have h := hd 0 (by simp)
      simpa using h
    have h0sq : (B - (i : ℚ) + 1) ^ 2 ≠ 0 := pow_ne_zero 2 h0
    obtain ⟨s, hs⟩ := s1sqAux_ok B xs (i + 1) (fun k hk => by
      have h := hd (k + 1) (by simp only [List.length_cons]; omega)
      have e : i + (k + 1) = i + 1 + k := by omega
      rw [e] at h
      exact h)
    exact ⟨1 / (B - (i : ℚ) + 1) ^ 2 + s, by simp [s1sqAux, h0sq, hs]⟩

/-- With `B` strictly above `n` every denominator `B - i + 1` scanned from
index `1` is strictly positive. -/
theorem denom_pos (X : List ℚ) (B : ℚ) (hB : (X.length : ℚ) < B) :
    ∀ k, k < X.length → 0 < B - ((1 + k : ℕ) : ℚ) + 1 := by
  intro k hk
  have hkq : (k : ℚ) < (X.length : ℚ) := by exact_mod_cast hk
  push_cast
  linarith

/-- For a nonempty positive observation list and `B > n`, `f_and_s2`
succeeds, returning the positive weighted sum as its second component. -/
theorem f_and_s2_ok (X : List ℚ) (B : ℚ) (hne : X ≠ []) (hpos : ∀ x ∈ X, 0 < x)
    (hB : (X.length : ℚ) < B) :
    ∃ val, f_and_s2 X B = .ok (val, s2sum B 1 X) ∧ 0 < s2sum B 1 X := by
  have hd := denom_pos X B hB
  obtain ⟨s1, hs1⟩ := fS2Aux_ok B X 1 (fun k hk => ne_of_gt (hd k hk))
  have hs2 : 0 < s2sum B 1 X := s2sum_pos B X 1 hne hd hpos
  exact ⟨s1 - ((X.length : ℚ) * sumX X) / s2sum B 1 X,
    by simp [f_and_s2, hs1, ne_of_gt hs2], hs2⟩

/-- For `B > n` and a nonzero weighted sum, `fprime` succeeds. -/
theorem fprime_ok (X : List ℚ) (s2 B : ℚ) (hB : (X.length : ℚ) < B) (hs2 : s2 ≠ 0) :
    ∃ d, fprime X s2 B = .ok d := by
  obtain ⟨s, hs⟩ := s1sqAux_ok B X 1 (fun k hk => ne_of_gt (denom_pos X B hB k hk))
  exact ⟨-s + ((X.length : ℚ) * (sumX X) ^ 2) / s2 ^ 2,
    by simp [fprime, hs, pow_ne_zero 2 hs2]⟩

/-- The clamped derivative is never zero, so the Newton update divides by a
nonzero quantity in every iteration. -/
theorem clampDeriv_ne_zero (d : ℚ) : clampDeriv d ≠ 0 := by
  unfold clampDeriv
  by_cases h : |d| < 1 / 10 ^ 16
  · rw [if_pos h]
    norm_num
  · rw [if_neg h]
    intro h0
    rw [h0] at h
    exact h (by norm_num)

/-- For a nonempty positive observation list and `B > n`, one guarded Newton
update succeeds and lands strictly above `n` again. -/
theorem newtonStep_ok (X : List ℚ) (B : ℚ) (hne : X ≠ []) (hpos : ∀ x ∈ X, 0 < x)
    (hB : (X.length : ℚ) < B) :
    ∃ Bn, newtonStep X B = .ok Bn ∧ (X.length : ℚ) < Bn := by
  obtain ⟨val, hval, hs2⟩ := f_and_s2_ok X B hne hpos hB
  obtain ⟨d, hd⟩ := fprime_ok X (s2sum B 1 X) B hB (ne_of_gt hs2)
  have hstep : newtonStep X B =
      .ok (if B - val / clampDeriv d ≤ (X.length : ℚ)
           then (B + (X.length : ℚ) + 1) / 2 else B - val / clampDeriv d) := by
    unfold newtonStep
    simp only [hval, hd]
  by_cases hg : B - val / clampDeriv d ≤ (X.length : ℚ)
  · rw [if_pos hg] at hstep
    exact ⟨_, hstep, by linarith⟩
  · rw [if_neg hg] at hstep
    exact ⟨_, hstep, by linarith⟩

/-- Master invariant of the Newton loop: started strictly above `n` on a
nonempty positive observation list, the loop raises no exception, every
returned estimate stays strictly above `n`, a non-converged return reports
`iterations = maxiter`, and a converged return reports an iteration number
inside the consumed fuel window. -/
theorem newtonLoop_master (X : List ℚ) (tol : ℚ) (maxiter : ℕ)
    (hne : X ≠ []) (hpos : ∀ x ∈ X, 0 < x) :
    ∀ (fuel it : ℕ) (B : ℚ), (X.length : ℚ) < B →
    ∃ Bo ito c, newtonLoop X tol maxiter fuel it B = .ok (Bo, ito, c) ∧
      (X.length : ℚ) < Bo ∧ (c = false → ito = maxiter) ∧
      (c = true → it ≤ ito ∧ ito < it + fuel)
  | 0, it, B, hB =>
    ⟨B, maxiter, false, rfl, hB, fun _ => rfl, fun h => nomatch h⟩
  | fuel + 1, it, B, hB => by
    obtain ⟨val, hval, hs2⟩ := f_and_s2_ok X B hne hpos hB
    by_cases hconv : |val| < tol
    · refine ⟨B, it, true, ?_, hB, ?_, fun _ => ⟨le_refl it, by omega⟩⟩
      · unfold newtonLoop
        simp only [hval, if_pos hconv]
      · intro h
        exact absurd h (by simp)
    · obtain ⟨Bn, hstep, hBn⟩ := newtonStep_ok X B hne hpos hB
      by_cases hsmall : |Bn - B| < 1 / 10 ^ 12
      · refine ⟨Bn, it, true, ?_, hBn, ?_, fun _ => ⟨le_refl it, by omega⟩⟩
        · unfold newtonLoop
          simp only [hval, if_neg hconv, hstep, if_pos hsmall]
        · intro h
          exact absurd h (by simp)
      · obtain ⟨Bo, ito, c, hrec, hBo, hcf, hct⟩ :=
          newtonLoop_master X tol maxiter hne hpos fuel (it + 1) Bn hBn
        refine ⟨Bo, ito, c, ?_, hBo, hcf, fun hc => ?_⟩
        · unfold newtonLoop
          simp only [hval, if_neg hconv, hstep, if_neg hsmall, hrec]
        · obtain ⟨h1, h2⟩ := hct hc
          exact ⟨by omega, by omega⟩

/-- Master property of `solve_B_newton` on valid input: no exception, the
estimate exceeds `n`, the iteration count is within budget, and a
non-converged run consumed the whole budget. -/
theorem solve_master (X : List ℚ) (tol : ℚ) (maxiter : ℕ)
    (hne : X ≠ []) (hpos : ∀ x ∈ X, 0 < x) :
    ∃ B it c, solve_B_newton X tol maxiter = .ok (B, it, c) ∧
      (X.length : ℚ) < B ∧ it ≤ maxiter ∧ (c = false → it = maxiter) := by
  have hB0 : (X.length : ℚ) < (X.length : ℚ) + 2 := by linarith
  obtain ⟨B, it, c, hloop, hB, hcf, hct⟩ :=
    newtonLoop_master X tol maxiter hne hpos maxiter 1 ((X.length : ℚ) + 2) hB0
  refine ⟨B, it, c, hloop, hB, ?_, hcf⟩
  cases c with
  | false => rw [hcf rfl]
  | true =>
    obtain ⟨h1, h2⟩ := hct rfl
    omega

/-- Master property of `compute` on a nonempty list of strictly positive
intervals: no exception is raised, `n` is the input length, `B_hat > n`,
`remaining = B_hat - n > 0`, `K_hat > 0`, `X_next` is the finite positive
value `1/(K_hat·remaining)`, and the iteration count behaves as in
`solve_master` with the default budget `200`. -/
theorem compute_master (X : List ℚ) (hne : X ≠ []) (hpos : ∀ x ∈ X, 0 < x) :
    ∃ r : CoreRes, compute X = .ok r ∧ r.n = X.length ∧
      (X.length : ℚ) < r.B_hat ∧ r.remaining = r.B_hat - (X.length : ℚ) ∧
      0 < r.remaining ∧ 0 < r.K_hat ∧
      r.X_next = some (1 / (r.K_hat * r.remaining)) ∧
      0 < 1 / (r.K_hat * r.remaining) ∧
      r.iterations ≤ 200 ∧ (r.converged = false → r.iterations = 200) := by
  obtain ⟨B, it, c, hsolve, hB, hit, hcf⟩ := solve_master X (1 / 10 ^ 10) 200 hne hpos
  have hd := denom_pos X B hB
  have hdenom : 0 < s2sum B 1 X := s2sum_pos B X 1 hne hd hpos
  have hlenq : (0 : ℚ) < (X.length : ℚ) := by
    have hlen : 0 < X.length := List.length_pos.mpr hne
    exact_mod_cast hlen
  have hK : 0 < (X.length : ℚ) / s2sum B 1 X := div_pos hlenq hdenom
  have hrem : 0 < B - (X.length : ℚ) := by linarith
  have hKrem : 0 < (X.length : ℚ) / s2sum B 1 X * (B - (X.length : ℚ)) := mul_pos hK hrem
  refine ⟨⟨X.length, B, (X.length : ℚ) / s2sum B 1 X,
      some (1 / ((X.length : ℚ) / s2sum B 1 X * (B - (X.length : ℚ)))), it, c,
      B - (X.length : ℚ)⟩, ?_, rfl, hB, rfl, hrem, hK, rfl, one_div_pos.mpr hKrem, hit, hcf⟩
  unfold compute
  simp only [hsolve]
  rw [if_neg (ne_of_gt hdenom), if_neg (not_le.mpr hrem), if_neg (ne_of_gt hKrem)]

/-! ### The claims -/

/-- C2 (code_bug evidence): on the empty input the estimator does not reject
with an input-validation error before iterating; instead the very first
function evaluation divides by the zero weighted sum `s2` (Python raises
`ZeroDivisionError` at `(n * Sx) / s2`). -/
theorem C2_empty_input_divide_by_zero :
    compute ([] : List ℚ) = .error .divByZero ∧
    solve_B_newton ([] : List ℚ) (1 / 10 ^ 10) 200 = .error .divByZero := by
  constructor
  · with_unfolding_all rfl
  · with_unfolding_all rfl

/-- C3 (code_bug evidence): on an input containing a negative interval the
estimator performs no validation at all: the Newton loop runs and returns a
converged result (here `[-1]` converges at the very first iterate `B = 3`
with a negative `K_hat`), instead of failing with `InvalidArgument` before
iterating. -/
theorem C3_negative_interval_no_validation :
    compute [-1] = .ok ⟨1, 3, -(1 / 3), some (-(3 / 2)), 1, true, 2⟩ := by
  with_unfolding_all rfl

/-- Structure of every converged return of the Newton loop: either the
residual at the returned value is below `tol`, or the returned value is the
guarded Newton update of some previous iterate at distance `< 1e-12`. -/
theorem newtonLoop_criterion (X : List ℚ) (tol : ℚ) (maxiter : ℕ) :
    ∀ (fuel it : ℕ) (B0 B : ℚ) (ito : ℕ),
      newtonLoop X tol maxiter fuel it B0 = .ok (B, ito, true) →
      (∃ v s2, f_and_s2 X B = .ok (v, s2) ∧ |v| < tol) ∨
      (∃ Bp, newtonStep X Bp = .ok B ∧ |B - Bp| < 1 / 10 ^ 12)
  | 0, it, B0, B, ito, h => by
    unfold newtonLoop at h
    simp at h
  | fuel + 1, it, B0, B, ito, h => by
    unfold newtonLoop at h
    cases hf : f_and_s2 X B0 with
    | error e =>
      simp only [hf] at h
      exact absurd h (by simp)
    | ok p =>
      obtain ⟨v, s2⟩ := p
      simp only [hf] at h
      by_cases hc : |v| < tol
      · rw [if_pos hc] at h
        simp only [Except.ok.injEq, Prod.mk.injEq] at h
        obtain ⟨hBB, -⟩ := h
        rw [← hBB]
        exact Or.inl ⟨v, s2, hf, hc⟩
      · rw [if_neg hc] at h
        cases hs : newtonStep X B0 with
        | error e =>
          simp only [hs] at h
          exact absurd h (by simp)
        | ok Bn =>
          simp only [hs] at h
          by_cases hsm : |Bn - B0| < 1 / 10 ^ 12
          · rw [if_pos hsm] at h
            simp only [Except.ok.injEq, Prod.mk.injEq] at h
            obtain ⟨hBB, -⟩ := h
            rw [← hBB]
            exact Or.inr ⟨B0, hs, hsm⟩
          · rw [if_neg hsm] at h
            exact newtonLoop_criterion X tol maxiter fuel (it + 1) Bn B ito h

/-- C4: if the solver returns `converged = true` at `bHat`, then either the
residual satisfies `|f(bHat)| < tol` or `bHat` is a guarded Newton update of
the previous iterate with step size `< 1e-12` — one of the two stopping
criteria holds for every converged result. -/
theorem C4_converged_stopping_criterion (X : List ℚ) (tol : ℚ) (maxiter : ℕ)
    (B : ℚ) (it : ℕ) (h : solve_B_newton X tol maxiter = .ok (B, it, true)) :
    (∃ v s2, f_and_s2 X B = .ok (v, s2) ∧ |v| < tol) ∨
    (∃ Bp, newtonStep X Bp = .ok B ∧ |B - Bp| < 1 / 10 ^ 12) :=
  newtonLoop_criterion X tol maxiter maxiter 1 ((X.length : ℚ) + 2) B it h

/-- Witness for C4 at the concrete input `[3, 4]` (which converges at the
first iterate with residual exactly `0`). -/
theorem C4_converged_stopping_criterion_witness :
    solve_B_newton [3, 4] (1 / 10 ^ 10) 200 = .ok (4, 1, true) ∧
    ((∃ v s2, f_and_s2 [3, 4] 4 = .ok (v, s2) ∧ |v| < 1 / 10 ^ 10) ∨
     (∃ Bp, newtonStep [3, 4] Bp = .ok 4 ∧ |4 - Bp| < 1 / 10 ^ 12)) :=
  ⟨by with_unfolding_all rfl,
   C4_converged_stopping_criterion [3, 4] (1 / 10 ^ 10) 200 4 1 (by with_unfolding_all rfl)⟩

/-- C5: for a nonempty input of strictly positive intervals, a converged
solver result satisfies `bHat > n`: the domain guard keeps every iterate
strictly above `n`. -/
theorem C5_converged_bHat_gt_n (X : List ℚ) (tol : ℚ) (maxiter : ℕ)
    (B : ℚ) (it : ℕ) (hne : X ≠ []) (hpos : ∀ x ∈ X, 0 < x)
    (h : solve_B_newton X tol maxiter = .ok (B, it, true)) :
    (X.length : ℚ) < B := by
  obtain ⟨Bo, ito, c, hs, hBo, -, -⟩ := solve_master X tol maxiter hne hpos
  rw [h] at hs
  simp only [Except.ok.injEq, Prod.mk.injEq] at hs
  obtain ⟨hBB, -⟩ := hs
  rw [hBB]
  exact hBo

/-- Witness for C5 at the concrete input `[3, 4]`. -/
theorem C5_converged_bHat_gt_n_witness :
    solve_B_newton [3, 4] (1 / 10 ^ 10) 200 = .ok (4, 1, true) ∧
    (([3, 4] : List ℚ).length : ℚ) < 4 :=
  ⟨by with_unfolding_all rfl,
   C5_converged_bHat_gt_n [3, 4] (1 / 10 ^ 10) 200 4 1 (by decide) (by decide)
     (by with_unfolding_all rfl)⟩

/-- C6: for every nonempty input of strictly positive intervals the solver
terminates within `maxiter` iterations without raising: it returns some
`(B, it, c)` with `it ≤ maxiter`, and when neither convergence test fired
(`c = false`) the reported iteration count is exactly `maxiter`.
(Termination itself is structural: the loop recurses on a fuel bounded by
`maxiter`.) -/
theorem C6_bounded_termination (X : List ℚ) (tol : ℚ) (maxiter : ℕ)
    (hne : X ≠ []) (hpos : ∀ x ∈ X, 0 < x) :
    ∃ B it c, solve_B_newton X tol maxiter = .ok (B, it, c) ∧
      it ≤ maxiter ∧ (c = false → it = maxiter) := by
  obtain ⟨B, it, c, hs, -, hit, hcf⟩ := solve_master X tol maxiter hne hpos
  exact ⟨B, it, c, hs, hit, hcf⟩

/-- Witness for C6 at the concrete input `[3, 4]`. -/
theorem C6_bounded_termination_witness :
    ∃ B it c, solve_B_newton [3, 4] (1 / 10 ^ 10) 200 = .ok (B, it, c) ∧
      it ≤ 200 ∧ (c = false → it = 200) :=
  C6_bounded_termination [3, 4] (1 / 10 ^ 10) 200 (by decide) (by decide)

/-- C9: for a nonempty input of strictly positive intervals, a returned
result that converged with `remaining > 0` has `K_hat > 0`. -/
theorem C9_kHat_positive (X : List ℚ) (r : CoreRes)
    (hne : X ≠ []) (hpos : ∀ x ∈ X, 0 < x) (h : compute X = .ok r)
    (hconv : r.converged = true) (hrem : 0 < r.remaining) : 0 < r.K_hat := by
  obtain ⟨r0, h1, -, -, -, -, hK, -, -, -, -⟩ := compute_master X hne hpos
  rw [h] at h1
  simp only [Except.ok.injEq] at h1
  rw [h1]
  exact hK

/-- Witness for C9 at the concrete input `[3, 4]`. -/
theorem C9_kHat_positive_witness :
    compute [3, 4] = .ok ⟨2, 4, 1 / 12, some 6, 1, true, 2⟩ ∧
    (0 : ℚ) < 1 / 12 :=
  ⟨by with_unfolding_all rfl,
   C9_kHat_positive [3, 4] ⟨2, 4, 1 / 12, some 6, 1, true, 2⟩ (by decide) (by decide)
     (by with_unfolding_all rfl) rfl (by norm_num)⟩

/-- C10 (implicit safety claim): for every input with `n ≥ 1` strictly
positive intervals the estimator raises no exception (every iterate stays
strictly above `n`, so no denominator vanishes), the returned `B_hat`
exceeds `n` even when `converged = false`, hence `remaining > 0` and
`X_next` is a finite positive value rather than the infinity sentinel. -/
theorem C10_no_exception_safety (X : List ℚ) (hne : X ≠ []) (hpos : ∀ x ∈ X, 0 < x) :
    ∃ r : CoreRes, compute X = .ok r ∧ (X.length : ℚ) < r.B_hat ∧
      0 < r.remaining ∧ ∃ q, r.X_next = some q ∧ 0 < q := by
  obtain ⟨r, h1, -, hB, -, hrem, -, hx, hxpos, -, -⟩ := compute_master X hne hpos
  exact ⟨r, h1, hB, hrem, 1 / (r.K_hat * r.remaining), hx, hxpos⟩

/-- Witness for C10 at the concrete input `[3, 4]`. -/
theorem C10_no_exception_safety_witness :
    ∃ r : CoreRes, compute [3, 4] = .ok r ∧ (([3, 4] : List ℚ).length : ℚ) < r.B_hat ∧
      0 < r.remaining ∧ ∃ q, r.X_next = some q ∧ 0 < q :=
  C10_no_exception_safety [3, 4] (by decide) (by decide)

/-- C7 counterexample: on the concrete near-zero negative derivative
`-1e-17` the solver's clamp (lines 53–54 of the source) produces the
positive constant `+1e-16`, not `-1e-16` — the sign is not preserved. -/
theorem C7_clamp_counterexample :
    clampDeriv (-(1 / 10 ^ 17)) = 1 / 10 ^ 16 ∧
    clampDeriv (-(1 / 10 ^ 17)) ≠ -(1 / 10 ^ 16) := by
  have h : clampDeriv (-(1 / 10 ^ 17)) = 1 / 10 ^ 16 := by
    with_unfolding_all rfl
  refine ⟨h, ?_⟩
  rw [h]
  norm_num

/-- C7 amended: in every Newton iteration where `|f′(B)| < 1e-16` the solver
replaces the derivative by the constant `+1e-16` regardless of its sign
(a negative near-zero derivative also becomes `+1e-16`); a derivative of
magnitude `≥ 1e-16` is left unchanged, and the clamped derivative is never
zero. -/
theorem C7_clamp_amended (d : ℚ) :
    (|d| < 1 / 10 ^ 16 → clampDeriv d = 1 / 10 ^ 16) ∧
    (1 / 10 ^ 16 ≤ |d| → clampDeriv d = d) ∧ clampDeriv d ≠ 0 := by
  refine ⟨fun h => ?_, fun h => ?_, clampDeriv_ne_zero d⟩
  · unfold clampDeriv
    rw [if_pos h]
  · unfold clampDeriv
    rw [if_neg (not_lt.mpr h)]

/-- Witness for C7 amended at the concrete derivative `-1e-17`. -/
theorem C7_clamp_amended_witness :
    |(-(1 / 10 ^ 17) : ℚ)| < 1 / 10 ^ 16 ∧ clampDeriv (-(1 / 10 ^ 17)) = 1 / 10 ^ 16 := by
  have habs : |(-(1 / 10 ^ 17) : ℚ)| < 1 / 10 ^ 16 := by
    rw [abs_neg, abs_of_nonneg (by norm_num)]
    norm_num
  exact ⟨habs, (C7_clamp_amended (-(1 / 10 ^ 17))).1 habs⟩

/-! ### Scale invariance of the solver trajectory -/

theorem sumX_map_mul (c : ℚ) : ∀ xs : List ℚ,
    sumX (xs.map (fun x => c * x)) = c * sumX xs
  | [] => by simp [sumX]
  | x :: xs => by
    simp only [List.map_cons, sumX, sumX_map_mul c xs]
    ring

theorem s2sum_map_mul (B c : ℚ) : ∀ (xs : List ℚ) (i : ℕ),
    s2sum B i (xs.map (fun x => c * x)) = c * s2sum B i xs
  | [], _ => by simp [s2sum]
  | x :: xs, i => by
    simp only [List.map_cons, s2sum, s2sum_map_mul B c xs (i + 1)]
    ring

theorem s1sqAux_map_mul (B c : ℚ) : ∀ (xs : List ℚ) (i : ℕ),
    s1sqAux B i (xs.map (fun x => c * x)) = s1sqAux B i xs
  | [], _ => rfl
  | x :: xs, i => by
    simp only [List.map_cons, s1sqAux]
    rw [s1sqAux_map_mul B c xs (i + 1)]

theorem fS2Aux_map_mul (B c : ℚ) : ∀ (xs : List ℚ) (i : ℕ),
    fS2Aux B i (xs.map (fun x => c * x)) =
      (fS2Aux B i xs).map (fun p => (p.1, c * p.2))
  | [], _ => by simp [fS2Aux, Except.map]
  | x :: xs, i => by
    by_cases h0 : B - (i : ℚ) + 1 = 0
    · simp [fS2Aux, h0, Except.map]
    · simp only [List.map_cons, fS2Aux, h0, if_false]
      rw [fS2Aux_map_mul B c xs (i + 1)]
      cases fS2Aux B (i + 1) xs with
      | error e => simp [Except.map]
      | ok p =>
        obtain ⟨s1, s2⟩ := p
        simp only [Except.map]
        rw [Except.ok.injEq, Prod.mk.injEq]
        exact ⟨rfl, by ring⟩

/-- Scaling the intervals by a nonzero `c` leaves the value of `f` unchanged
and multiplies the returned weighted sum by `c`. -/
theorem f_and_s2_map_mul (X : List ℚ) (B c : ℚ) (hc : c ≠ 0) :
    f_and_s2 (X.map (fun x => c * x)) B =
      (f_and_s2 X B).map (fun p => (p.1, c * p.2)) := by
  unfold f_and_s2
  rw [fS2Aux_map_mul]
  cases fS2Aux B 1 X with
  | error e => simp [Except.map]
  | ok p =>
    obtain ⟨s1, s2⟩ := p
    simp only [Except.map, List.length_map, sumX_map_mul]
    by_cases h2 : s2 = 0
    · simp [h2, hc]
    · have hcs2 : c * s2 ≠ 0 := mul_ne_zero hc h2
      rw [if_neg hcs2, if_neg h2]
      simp only [Except.map]
      rw [Except.ok.injEq, Prod.mk.injEq]
      refine ⟨?_, rfl⟩
      have e1 : (X.length : ℚ) * (c * sumX X) = c * ((X.length : ℚ) * sumX X) := by ring
      rw [e1, mul_div_mul_left _ _ hc]

/-- Scaling the intervals by a nonzero `c` leaves the derivative value
unchanged (evaluated at the correspondingly scaled weighted sum). -/
theorem fprime_map_mul (X : List ℚ) (s2 B c : ℚ) (hc : c ≠ 0) :
    fprime (X.map (fun x => c * x)) (c * s2) B = fprime X s2 B := by
  unfold fprime
  rw [s1sqAux_map_mul]
  cases s1sqAux B 1 X with
  | error e => rfl
  | ok s =>
    simp only [List.length_map, sumX_map_mul]
    by_cases h2 : s2 = 0
    · rw [h2]
      simp
    · have hcs2 : (c * s2) ^ 2 ≠ 0 := pow_ne_zero 2 (mul_ne_zero hc h2)
      rw [if_neg hcs2, if_neg (pow_ne_zero 2 h2)]
      rw [Except.ok.injEq]
      have e1 : (X.length : ℚ) * (c * sumX X) ^ 2 = c ^ 2 * ((X.length : ℚ) * (sumX X) ^ 2) := by
        ring
      have e2 : (c * s2) ^ 2 = c ^ 2 * s2 ^ 2 := by ring
      rw [e1, e2, mul_div_mul_left _ _ (pow_ne_zero 2 hc)]

/-- Scaling the intervals by a nonzero `c` leaves one guarded Newton update
unchanged. -/
theorem newtonStep_map_mul (X : List ℚ) (B c : ℚ) (hc : c ≠ 0) :
    newtonStep (X.map (fun x => c * x)) B = newtonStep X B := by
  unfold newtonStep
  rw [f_and_s2_map_mul X B c hc]
  cases f_and_s2 X B with
  | error e => simp [Except.map]
  | ok p =>
    obtain ⟨val, s2⟩ := p
    simp only [Except.map]
    rw [fprime_map_mul X s2 B c hc]
    cases fprime X s2 B with
    | error e => rfl
    | ok d => simp only [List.length_map]

/-- Scaling the intervals by a nonzero `c` leaves the entire Newton loop
trajectory unchanged. -/
theorem newtonLoop_map_mul (X : List ℚ) (tol : ℚ) (maxiter : ℕ) (c : ℚ) (hc : c ≠ 0) :
    ∀ (fuel it : ℕ) (B : ℚ),
      newtonLoop (X.map (fun x => c * x)) tol maxiter fuel it B =
        newtonLoop X tol maxiter fuel it B
  | 0, _, _ => rfl
  | fuel + 1, it, B => by
    unfold newtonLoop
    rw [f_and_s2_map_mul X B c hc]
    cases f_and_s2 X B with
    | error e => simp [Except.map]
    | ok p =>
      obtain ⟨val, s2⟩ := p
      simp only [Except.map]
      by_cases hcv : |val| < tol
      · rw [if_pos hcv, if_pos hcv]
      · rw [if_neg hcv, if_neg hcv, newtonStep_map_mul X B c hc]
        cases hns : newtonStep X B with
        | error e => simp only [hns]
        | ok Bn =>
          simp only [hns]
          by_cases hsm : |Bn - B| < 1 / 10 ^ 12
          · rw [if_pos hsm, if_pos hsm]
          · rw [if_neg hsm, if_neg hsm]
            exact newtonLoop_map_mul X tol maxiter c hc fuel (it + 1) Bn

/-- Scaling the intervals by a nonzero `c` does not change the solver
output at all (same `B_hat`, same iteration count, same flag). -/
theorem solve_B_newton_map_mul (X : List ℚ) (tol : ℚ) (maxiter : ℕ) (c : ℚ) (hc : c ≠ 0) :
    solve_B_newton (X.map (fun x => c * x)) tol maxiter = solve_B_newton X tol maxiter := by
  unfold solve_B_newton
  rw [List.length_map, newtonLoop_map_mul X tol maxiter c hc]

/-- C8: for a nonempty list of strictly positive intervals and any constant
`c > 0`, running the estimator on the scaled list yields the same `B_hat`
and a `K_hat` equal to the original `K_hat` divided by `c`. -/
theorem C8_scale_invariance (X : List ℚ) (c : ℚ) (hc : 0 < c)
    (hne : X ≠ []) (hpos : ∀ x ∈ X, 0 < x) :
    ∃ r rs : CoreRes, compute X = .ok r ∧
      compute (X.map (fun x => c * x)) = .ok rs ∧
      rs.B_hat = r.B_hat ∧ rs.K_hat = r.K_hat / c := by
  obtain ⟨B, it, cv, hsolve, hB, hit, hcf⟩ := solve_master X (1 / 10 ^ 10) 200 hne hpos
  have hd := denom_pos X B hB
  have hdenom : 0 < s2sum B 1 X := s2sum_pos B X 1 hne hd hpos
  have hlenq : (0 : ℚ) < (X.length : ℚ) := by
    have hlen : 0 < X.length := List.length_pos.mpr hne
    exact_mod_cast hlen
  have hrem : 0 < B - (X.length : ℚ) := by linarith
  have hK : 0 < (X.length : ℚ) / s2sum B 1 X := div_pos hlenq hdenom
  have hKrem : 0 < (X.length : ℚ) / s2sum B 1 X * (B - (X.length : ℚ)) := mul_pos hK hrem
  have hcompX : compute X = .ok ⟨X.length, B, (X.length : ℚ) / s2sum B 1 X,
      some (1 / ((X.length : ℚ) / s2sum B 1 X * (B - (X.length : ℚ)))), it, cv,
      B - (X.length : ℚ)⟩ := by
    unfold compute
    simp only [hsolve]
    rw [if_neg (ne_of_gt hdenom), if_neg (not_le.mpr hrem), if_neg (ne_of_gt hKrem)]
  have hsolve2 : solve_B_newton (X.map (fun x => c * x)) (1 / 10 ^ 10) 200 = .ok (B, it, cv) := by
    rw [solve_B_newton_map_mul X (1 / 10 ^ 10) 200 c (ne_of_gt hc)]
    exact hsolve
  have hdenom2 : 0 < c * s2sum B 1 X := mul_pos hc hdenom
  have hK2 : 0 < (X.length : ℚ) / (c * s2sum B 1 X) := div_pos hlenq hdenom2
  have hKrem2 : 0 < (X.length : ℚ) / (c * s2sum B 1 X) * (B - (X.length : ℚ)) :=
    mul_pos hK2 hrem
  have hcompX2 : compute (X.map (fun x => c * x)) =
      .ok ⟨X.length, B, (X.length : ℚ) / (c * s2sum B 1 X),
        some (1 / ((X.length : ℚ) / (c * s2sum B 1 X) * (B - (X.length : ℚ)))), it, cv,
        B - (X.length : ℚ)⟩ := by
    unfold compute
    simp only [hsolve2, List.length_map, s2sum_map_mul]
    rw [if_neg (ne_of_gt hdenom2), if_neg (not_le.mpr hrem), if_neg (ne_of_gt hKrem2)]
  refine ⟨_, _, hcompX, hcompX2, rfl, ?_⟩
  rw [div_div, mul_comm]

/-- Witness for C8 at the concrete input `[3, 4]` with `c = 2`. -/
theorem C8_scale_invariance_witness :
    ∃ r rs : CoreRes, compute [3, 4] = .ok r ∧
      compute (([3, 4] : List ℚ).map (fun x => 2 * x)) = .ok rs ∧
      rs.B_hat = r.B_hat ∧ rs.K_hat = r.K_hat / 2 :=
  C8_scale_invariance [3, 4] 2 (by norm_num) (by decide) (by decide)

/-! ### The time-to-finish formula (claim C1) -/

/-- `log (9/2) > 3/2`, because `exp 3 < 20.25 = (9/2)^2`. -/
theorem log_nine_halves_gt : (3 / 2 : ℝ) < Real.log (9 / 2) := by
  rw [Real.lt_log_iff_exp_lt (by norm_num : (0 : ℝ) < 9 / 2)]
  have h0 : (0 : ℝ) < Real.exp 1 := Real.exp_pos 1
  have h1 : Real.exp 1 < 2.7182818286 := Real.exp_one_lt_d9
  have he3 : Real.exp 3 = Real.exp 1 ^ 3 := by
    rw [← Real.exp_nat_mul]
    norm_num
  have h2 : Real.exp 1 ^ 2 < 2.7182818286 ^ 2 := by nlinarith
  have h3 : Real.exp 3 < 20.25 := by
    rw [he3]
    nlinarith
  have hsq : Real.exp (3 / 2) ^ 2 = Real.exp 3 := by
    rw [← Real.exp_nat_mul]
    norm_num
  nlinarith [Real.exp_pos (3 / 2 : ℝ), hsq, h3]

/-- Any successful `compute` result records `remaining = B_hat - n`. -/
theorem compute_remaining (X : List ℚ) (r : CoreRes) (h : compute X = .ok r) :
    r.remaining = r.B_hat - (r.n : ℚ) := by
  unfold compute at h
  cases hs : solve_B_newton X (1 / 10 ^ 10) 200 with
  | error e =>
    rw [hs] at h
    exact absurd h (by simp)
  | ok p =>
    obtain ⟨B, it, c⟩ := p
    simp only [hs] at h
    by_cases hden : s2sum B 1 X = 0
    · rw [if_pos hden] at h
      exact absurd h (by simp)
    · rw [if_neg hden] at h
      by_cases hr : B - (X.length : ℚ) ≤ 0
      · rw [if_pos hr] at h
        simp only [Except.ok.injEq] at h
        rw [← h]
      · rw [if_neg hr] at h
        by_cases hk : (X.length : ℚ) / s2sum B 1 X * (B - (X.length : ℚ)) = 0
        · rw [if_pos hk] at h
          exact absurd h (by simp)
        · rw [if_neg hk] at h
          simp only [Except.ok.injEq] at h
          rw [← h]

/-- C1 counterexample: on the concrete input
`[2531, 0, 0, 0, 0, 0, 4167]` (n = 7) the estimator converges at the first
iterate to `B_hat = 9` with `K_hat = 1/5040` and `remaining = 2 > 0`, yet
the code's time-to-finish value (`max(H_2, log(9/2))/K_hat`, in which the
logarithmic term dominates since `log 4.5 > 3/2`) differs from the spec's
harmonic-only formula `H_m/K_hat = 7560`: a logarithmic term does enter the
result, so the claimed formula is wrong for this input. -/
theorem C1_time_to_finish_counterexample :
    compute [2531, 0, 0, 0, 0, 0, 4167] = .ok ⟨7, 9, 1 / 5040, some 2520, 1, true, 2⟩ ∧
    time_to_finish 9 7 (1 / 5040) ≠ ((time_to_finish_spec 9 7 (1 / 5040) : ℚ) : ℝ) := by
  have hharm : (harm 2 : ℚ) = 3 / 2 := by with_unfolding_all rfl
  have hlog := log_nine_halves_gt
  have hval : time_to_finish 9 7 (1 / 5040) = 5040 * Real.log (9 / 2) := by
    unfold time_to_finish
    rw [if_pos (by norm_num : (0 : ℚ) < (9 : ℚ) - ((7 : ℕ) : ℚ))]
    have h1 : (⌊(9 : ℚ) - ((7 : ℕ) : ℚ)⌋).toNat = 2 := by
      have hf : ⌊(9 : ℚ) - ((7 : ℕ) : ℚ)⌋ = 2 := by norm_num
      rw [hf]
      rfl
    rw [h1, hharm]
    have h2 : ((9 : ℚ) : ℝ) / (((9 : ℚ) : ℝ) - ((7 : ℕ) : ℝ)) = (9 : ℝ) / 2 := by
      push_cast
      norm_num
    have h3 : (((3 : ℚ) / 2 : ℚ) : ℝ) = (3 : ℝ) / 2 := by
      push_cast
      ring
    rw [h2, h3, max_eq_right (le_of_lt hlog)]
    have h4 : (((1 : ℚ) / 5040 : ℚ) : ℝ) = (1 : ℝ) / 5040 := by
      push_cast
      ring
    rw [h4]
    field_simp
    ring
  have hspec : ((time_to_finish_spec 9 7 (1 / 5040) : ℚ) : ℝ) = 7560 := by
    have h5 : time_to_finish_spec 9 7 (1 / 5040) = 7560 := by with_unfolding_all rfl
    rw [h5]
    norm_num
  refine ⟨by with_unfolding_all rfl, ?_⟩
  rw [hval, hspec]
  intro heq
  have hlogeq : Real.log (9 / 2) = 3 / 2 := by linarith
  exact lt_irrefl _ (hlogeq ▸ hlog)

/-- C1 amended: whenever `compute` succeeds with `remaining > 0`, the code's
time-to-finish equals `max(H_m, log(B_hat/(B_hat - n)))/K_hat` with
`m = ⌊remaining⌋` (truncation of the real-valued remaining count, with no
floor at 1): a harmonic sum and a logarithmic estimate both enter, combined
by `max`, and the harmonic index is `⌊B_hat⌋ - n`, not
`max(n+1, ⌈B_hat⌉) - n`. -/
theorem C1_time_to_finish_amended (X : List ℚ) (r : CoreRes)
    (h : compute X = .ok r) (hrem : 0 < r.remaining) :
    time_to_finish r.B_hat r.n r.K_hat =
      max ((harm (Int.toNat ⌊r.remaining⌋) : ℚ) : ℝ)
        (Real.log ((r.B_hat : ℝ) / ((r.B_hat : ℝ) - (r.n : ℝ)))) / ((r.K_hat : ℚ) : ℝ) := by
  have hrel : r.remaining = r.B_hat - (r.n : ℚ) := compute_remaining X r h
  unfold time_to_finish
  rw [← hrel, if_pos hrem]

/-- Witness for the amended C1 at the concrete input
`[2531, 0, 0, 0, 0, 0, 4167]`. -/
theorem C1_time_to_finish_amended_witness :
    compute [2531, 0, 0, 0, 0, 0, 4167] = .ok ⟨7, 9, 1 / 5040, some 2520, 1, true, 2⟩ ∧
    (0 : ℚ) < 2 ∧
    time_to_finish 9 7 (1 / 5040) =
      max ((harm (Int.toNat ⌊(2 : ℚ)⌋) : ℚ) : ℝ)
        (Real.log (((9 : ℚ) : ℝ) / (((9 : ℚ) : ℝ) - ((7 : ℕ) : ℝ)))) /
        (((1 : ℚ) / 5040 : ℚ) : ℝ) :=
  ⟨by with_unfolding_all rfl, by norm_num,
   C1_time_to_finish_amended [2531, 0, 0, 0, 0, 0, 4167]
     ⟨7, 9, 1 / 5040, some 2520, 1, true, 2⟩ (by with_unfolding_all rfl) (by norm_num)⟩

end JM
